import Mathlib

/-!
Verification development for the AVH GitHub-Actions template repository.

The repository consists of two Python scripts:

* `scripts/avh.py` — connects to the Arm Virtual Hardware REST API, creates a
  VM instance (`setupModel`), waits for state transitions (`waitForState`),
  optionally runs a dynamically loaded test script (`runTests`), and deletes
  the instance in a cleanup block (`main`).
* `scripts/test_stm32_iot_http_webserver.py` — a test script whose core is
  `waitForPattern`: it consumes websocket console messages, decodes each one
  as UTF-8, accumulates text, splits it on newline boundaries, and applies a
  regular-expression search to each completed line.

This file shallowly embeds those functions.  Remote API calls, sleeps and
console messages are represented by explicit inputs (a list of fetched
states, a list of message chunks, an environment record describing the
result of each remote call); regular-expression search is abstracted as a
function from a line to an optional match value.  Text is represented as a
list of Unicode code points (`List Nat`, with 10 the newline code point) and
raw websocket frames as lists of bytes (`List Nat`).
-/

namespace Avh

/-! ## waitForState (scripts/avh.py)

The source:

```
instanceState = await api_instance.v1_get_instance_state(instance.id)
while (instanceState != state):
    if (instanceState == "error"):
        raise Exception("VM entered error state")
    await asyncio.sleep(1)
    instanceState = await api_instance.v1_get_instance_state(instance.id)
```

The successive results of `v1_get_instance_state` are supplied as a list of
strings.  The embedding records the observable actions (each fetch and each
sleep, with its duration) and the outcome: `success` when the fetched state
equals the target, `errorState` when the exception is raised, `pending` when
the supplied list of states runs out while the loop is still polling (the
real loop would keep polling forever).
-/

/-- Observable actions of the state-polling loop: a fetch of the instance
state, or a sleep of the given number of time units. -/
inductive WAct where
  | fetch (s : String)
  | sleepAct (n : Nat)
  deriving DecidableEq, Repr

/-- Outcome of the state-polling loop on a finite list of fetched states. -/
inductive WOut where
  | success
  | errorState
  | pending
  deriving DecidableEq, Repr

/-- Embedding of `waitForState`.  The first fetch happens unconditionally;
the `while` condition (target equality) is tested before the `error` check;
an unsuccessful poll is followed by `asyncio.sleep(1)` and another fetch. -/
def waitForState (target : String) : List String → List WAct × WOut
  | [] => ([], WOut.pending)
  | s :: rest =>
    if s = target then ([WAct.fetch s], WOut.success)
    else if s = "error" then ([WAct.fetch s], WOut.errorState)
    else
      let r := waitForState target rest
      (WAct.fetch s :: WAct.sleepAct 1 :: r.1, r.2)

/-- Shape check for the action trace of the polling loop: the trace is
empty, or starts with a fetch, and between any two consecutive fetches there
is exactly one sleep, of exactly 1 time unit; a trailing sleep (the loop
about to poll again) is allowed. -/
def interleaved : List WAct → Bool
  | [] => true
  | WAct.fetch _ :: [] => true
  | WAct.fetch _ :: WAct.sleepAct n :: rest => n == 1 && interleaved rest
  | _ => false

/-! ## Board resolution (scripts/avh.py, setupModel)

The source:

```
api_response = await api_instance.v1_get_models()
chosenModel = None
for model in api_response:
    if model.flavor.startswith(board):
        chosenModel = model
        break

if chosenModel is None:
    raise Exception(f"Board not found: {board}")
```
-/

/-- Embedding of the Python string method `startswith`: a case-sensitive
check that the second string is an initial segment of the first. -/
def startswith (s p : String) : Bool := p.data.isPrefixOf s.data

/-- The fields of a catalog model that the scripts read. -/
structure Model where
  name : String
  flavor : String
  deriving DecidableEq, Repr

/-- Embedding of the `for model in api_response ... break` scan: the first
model in listing order whose flavor starts with the requested board. -/
def chooseModel (board : String) : List Model → Option Model
  | [] => none
  | m :: ms => if startswith m.flavor board then some m else chooseModel board ms

/-- Board resolution including the raise on a failed scan. -/
def resolveBoard (board : String) (models : List Model) : Except String Model :=
  match chooseModel board models with
  | some m => Except.ok m
  | none => Except.error ("Board not found: " ++ board)

/-! ## runTests (scripts/avh.py)

The source:

```
test = SourceFileLoader("test", script).load_module()
try:
    await asyncio.wait_for(test.run_test(api_instance, vm), timeout)
except Exception as e:
    print(f"Test failed: {e}")
    raise Exception("Test failed")
finally:
    logging.info("Test file finished.")

print("Test passed")
```

A run of the test script is abstracted by three facts: whether loading the
script file succeeds, whether the loaded `run_test` raises, and how many
time units `run_test` needs; `asyncio.wait_for` raises a timeout error when
that duration exceeds the timeout.  The embedding returns the lines printed
to standard output and whether `runTests` returns normally or raises.
-/

/-- Behaviour of one test-script invocation. -/
structure TestRun where
  loadOk : Bool
  raises : Bool
  duration : Nat
  deriving DecidableEq, Repr

/-- Result of a call in the workflow: normal return or a raised exception. -/
inductive RunRes where
  | ok
  | raised
  deriving DecidableEq, Repr

/-- Default of the `--timeout` command-line argument (argparse default=30). -/
def defaultTimeout : Nat := 30

/-- Embedding of `runTests`: loading happens before the `try` block, so a
load failure raises with nothing printed; inside the block, a raise from
`run_test` or an expired timeout prints `Test failed` and raises; otherwise
`Test passed` is printed. -/
def runTests (t : TestRun) (timeout : Nat) : List String × RunRes :=
  if t.loadOk = false then ([], RunRes.raised)
  else if t.raises = true ∨ timeout < t.duration then
    (["Test failed"], RunRes.raised)
  else (["Test passed"], RunRes.ok)

/-! ## Provisioning workflow (scripts/avh.py, setupModel and main)

The environment record supplies the result of every remote call in program
order.  The embedding records the lifecycle events that matter for the
cleanup invariant: instance creation and instance deletion.  In `main` the
source is

```
vm = None
...
try:
    vm = await setupModel(api_instance, args.board, args.firmware)
    if args.script is not None:
        await runTests(api_instance, vm, args.script, args.timeout)
finally:
    if vm is not None:
        await api_instance.v1_delete_instance(vm.id)
```

`vm` is assigned only when `setupModel` returns, so an exception raised
inside `setupModel` after `v1_create_instance` succeeded leaves `vm` equal
to `None` and the `finally` block skips the deletion.
-/

/-- The field of a created instance that the cleanup path reads. -/
structure Vm where
  id : String
  deriving DecidableEq, Repr

/-- Lifecycle events of the remote instance. -/
inductive Ev where
  | created (id : String)
  | deleted (id : String)
  deriving DecidableEq, Repr

/-- Result of `setupModel`: a returned instance, a raised exception, or an
unbounded block inside one of the state waits. -/
inductive SetupRes where
  | ok (vm : Vm)
  | raised
  | hung
  deriving DecidableEq, Repr

/-- Result of `main`. -/
inductive MainRes where
  | ok
  | raised
  | hung
  deriving DecidableEq, Repr

/-- Results of the remote calls made during one run, in program order. -/
structure WEnv where
  loginOk : Bool
  board : String
  projects : List String
  models : List Model
  software : List String
  createVm : Option Vm
  bootStates1 : List String
  uploadOk : Bool
  bootStates2 : List String
  test : Option TestRun
  timeout : Nat
  deriving Repr

/-- Embedding of `setupModel`: resolve project (first entry, IndexError on
an empty listing), resolve board, resolve base firmware (first entry),
create the instance, wait for `on`, upload the image, reboot and wait for
`on` again.  Every exception raised after a successful creation leaves the
`created` event in the run but produces no deletion here. -/
def setupModelRun (e : WEnv) : List Ev × SetupRes :=
  match e.projects with
  | [] => ([], SetupRes.raised)
  | _ :: _ =>
    match chooseModel e.board e.models with
    | none => ([], SetupRes.raised)
    | some _ =>
      match e.software with
      | [] => ([], SetupRes.raised)
      | _ :: _ =>
        match e.createVm with
        | none => ([], SetupRes.raised)
        | some vm =>
          match (waitForState "on" e.bootStates1).2 with
          | WOut.pending => ([Ev.created vm.id], SetupRes.hung)
          | WOut.errorState => ([Ev.created vm.id], SetupRes.raised)
          | WOut.success =>
            if e.uploadOk = false then ([Ev.created vm.id], SetupRes.raised)
            else
              match (waitForState "on" e.bootStates2).2 with
              | WOut.pending => ([Ev.created vm.id], SetupRes.hung)
              | WOut.errorState => ([Ev.created vm.id], SetupRes.raised)
              | WOut.success => ([Ev.created vm.id], SetupRes.ok vm)

/-- Embedding of `main`: login, then the `try` block running `setupModel`
and optionally `runTests`, then the `finally` block deleting the instance
only when the local variable `vm` is not `None` — which is the case exactly
when `setupModel` returned normally. -/
def mainRun (e : WEnv) : List Ev × MainRes :=
  if e.loginOk = false then ([], MainRes.raised)
  else
    match setupModelRun e with
    | (evs, SetupRes.hung) => (evs, MainRes.hung)
    | (evs, SetupRes.raised) => (evs, MainRes.raised)
    | (evs, SetupRes.ok vm) =>
      let testFailed : Bool :=
        match e.test with
        | none => false
        | some t => (runTests t e.timeout).2 == RunRes.raised
      (evs ++ [Ev.deleted vm.id], if testFailed then MainRes.raised else MainRes.ok)

/-- A run in which every step up to instance creation succeeds and the
first boot wait fetches the state `error`. -/
def bootErrorEnv : WEnv where
  loginOk := true
  board := "stm32u5"
  projects := ["p1"]
  models := [{ name := "STM32U5", flavor := "stm32u5-b0" }]
  software := ["sw1"]
  createVm := some { id := "i1" }
  bootStates1 := ["error"]
  uploadOk := true
  bootStates2 := []
  test := none
  timeout := 30

end Avh

namespace WebTest

/-! ## waitForPattern (scripts/test_stm32_iot_http_webserver.py)

The source:

```
text = ''
match = None
async for message in console:
    text += message.decode('utf-8')
    while '\n' in text:
        offset = text.find('\n')
        line, text = text[:offset], text[offset+1:]

        match = re.search(pattern, line)
        if (match):
            return match
```

Decoded text is a list of Unicode code points (`List Nat`); the newline
code point is 10.  The regular-expression search is abstracted as a
function `p : List Nat → Option M` from a completed line to an optional
match value.  The inner `while` loop is embedded with an explicit fuel
argument equal to the length of the buffer, which bounds the number of
times a newline can be split off.
-/

/-- Embedding of the split `text[:offset], text[offset+1:]` at
`offset = text.find('\n')`: `none` when the buffer holds no newline,
otherwise the text before the first newline and the text after it. -/
def breakNl : List Nat → Option (List Nat × List Nat)
  | [] => none
  | c :: cs =>
    if c = 10 then some ([], cs)
    else (breakNl cs).map (fun q => (c :: q.1, q.2))

/-- Embedding of the inner `while '\n' in text` loop: split off complete
lines and apply the search to each in order; return the first match
together with the remaining buffer, or no match and the final buffer. -/
def processTextLoop {M : Type} (p : List Nat → Option M) :
    Nat → List Nat → Option M × List Nat
  | 0, text => (none, text)
  | fuel + 1, text =>
    match breakNl text with
    | none => (none, text)
    | some (line, rest) =>
      match p line with
      | some m => (some m, rest)
      | none => processTextLoop p fuel rest

/-- The inner loop run with enough fuel for its buffer. -/
def processText {M : Type} (p : List Nat → Option M) (text : List Nat) :
    Option M × List Nat :=
  processTextLoop p text.length text

/-- Embedding of `waitForPattern` over already-decoded message chunks: the
buffer starts empty, each arriving message is appended to it, the inner
loop consumes completed lines, and exhaustion of the stream returns no
match (the Python function falls off the `async for` and returns `None`). -/
def waitForPattern {M : Type} (p : List Nat → Option M) :
    List Nat → List (List Nat) → Option M
  | _, [] => none
  | text, msg :: msgs =>
    let r := processText p (text ++ msg)
    match r.1 with
    | some m => some m
    | none => waitForPattern p r.2 msgs

/-! ### Instrumented variant

The same function, additionally returning the list of lines that were
passed to the search, in the order they were tested, and the buffer held
when the function returned.  Its first component agrees with
`waitForPattern` (lemma `waitForPatternT_fst` below).
-/

/-- The inner loop, also accumulating every line passed to the search. -/
def processTextLoopT {M : Type} (p : List Nat → Option M) :
    Nat → List Nat → Option M × List Nat × List (List Nat)
  | 0, text => (none, text, [])
  | fuel + 1, text =>
    match breakNl text with
    | none => (none, text, [])
    | some (line, rest) =>
      match p line with
      | some m => (some m, rest, [line])
      | none =>
        let r := processTextLoopT p fuel rest
        (r.1, r.2.1, line :: r.2.2)

/-- The instrumented pattern wait: result, final buffer, tested lines. -/
def waitForPatternT {M : Type} (p : List Nat → Option M) :
    List Nat → List (List Nat) → Option M × List Nat × List (List Nat)
  | text, [] => (none, text, [])
  | text, msg :: msgs =>
    let r := processTextLoopT p (text ++ msg).length (text ++ msg)
    match r.1 with
    | some m => (some m, r.2.1, r.2.2)
    | none =>
      let w := waitForPatternT p r.2.1 msgs
      (w.1, w.2.1, r.2.2 ++ w.2.2)

/-! ### UTF-8 decoding

Each websocket message arrives as bytes and is decoded by
`message.decode('utf-8')`, which raises `UnicodeDecodeError` on input that
is not valid UTF-8 — in particular on a chunk that ends in the middle of a
multi-byte sequence.  The decoder below follows the strict UTF-8 rules the
Python codec enforces: two-byte lead bytes C2..DF, three-byte lead bytes
E0..EF with the usual restrictions on the first continuation byte
(excluding overlong forms and surrogates), four-byte lead bytes F0..F4
likewise, and continuation bytes 80..BF.
-/

/-- Continuation-byte test: 80..BF. -/
def isCont (b : Nat) : Bool := decide (128 ≤ b ∧ b ≤ 191)

/-- Allowed first continuation byte after a three-byte lead. -/
def cont3ok (b0 b1 : Nat) : Bool :=
  if b0 = 224 then decide (160 ≤ b1 ∧ b1 ≤ 191)
  else if b0 = 237 then decide (128 ≤ b1 ∧ b1 ≤ 159)
  else isCont b1

/-- Allowed first continuation byte after a four-byte lead. -/
def cont4ok (b0 b1 : Nat) : Bool :=
  if b0 = 240 then decide (144 ≤ b1 ∧ b1 ≤ 191)
  else if b0 = 244 then decide (128 ≤ b1 ∧ b1 ≤ 143)
  else isCont b1

/-- Decode one code point from the front of a byte list: the code point and
the remaining bytes, or `none` when the bytes do not start with a complete
valid UTF-8 sequence. -/
def utf8DecodeOne : List Nat → Option (Nat × List Nat)
  | [] => none
  | b0 :: t0 =>
    if b0 < 128 then some (b0, t0)
    else if 194 ≤ b0 ∧ b0 ≤ 223 then
      match t0 with
      | b1 :: t1 =>
        if isCont b1 then some ((b0 - 192) * 64 + (b1 - 128), t1) else none
      | [] => none
    else if 224 ≤ b0 ∧ b0 ≤ 239 then
      match t0 with
      | b1 :: b2 :: t2 =>
        if cont3ok b0 b1 && isCont b2 then
          some ((b0 - 224) * 4096 + (b1 - 128) * 64 + (b2 - 128), t2)
        else none
      | _ => none
    else if 240 ≤ b0 ∧ b0 ≤ 244 then
      match t0 with
      | b1 :: b2 :: b3 :: t3 =>
        if cont4ok b0 b1 && isCont b2 && isCont b3 then
          some ((b0 - 240) * 262144 + (b1 - 128) * 4096 +
                  (b2 - 128) * 64 + (b3 - 128), t3)
        else none
      | _ => none
    else none

/-- Fuelled decoding loop: decode code points until the bytes are
exhausted; fail when the front is not a complete valid sequence. -/
def utf8DecodeLoop : Nat → List Nat → Option (List Nat)
  | _, [] => some []
  | 0, _ :: _ => none
  | fuel + 1, l =>
    match utf8DecodeOne l with
    | none => none
    | some (c, r) => (utf8DecodeLoop fuel r).map (fun t => c :: t)

/-- Embedding of `bytes.decode('utf-8')` (strict): the decoded code points,
or `none` when the bytes are not valid UTF-8. -/
def utf8Decode (l : List Nat) : Option (List Nat) := utf8DecodeLoop l.length l

/-- Embedding of `waitForPattern` over raw byte chunks: each message is
decoded separately, as in `text += message.decode('utf-8')`; a decode
failure raises (`Except.error`), otherwise the decoded text joins the
buffer and the run continues as in the text-level embedding. -/
def waitForPatternBytes {M : Type} (p : List Nat → Option M) :
    List Nat → List (List Nat) → Except Unit (Option M)
  | _, [] => Except.ok none
  | text, msg :: msgs =>
    match utf8Decode msg with
    | none => Except.error ()
    | some t =>
      let r := processText p (text ++ t)
      match r.1 with
      | some m => Except.ok (some m)
      | none => waitForPatternBytes p r.2 msgs

/-! ### Specification-side definitions -/

/-- Split a text into its completed (newline-terminated) lines and the
trailing text after the last newline. -/
def lineSplit : List Nat → List (List Nat) × List Nat
  | [] => ([], [])
  | c :: cs =>
    let r := lineSplit cs
    if c = 10 then ([] :: r.1, r.2)
    else
      match r.1 with
      | [] => ([], c :: r.2)
      | l :: ls => ((c :: l) :: ls, r.2)

/-- Rejoin lines, restoring the newline terminator after each. -/
def joinNl (ls : List (List Nat)) : List Nat :=
  (ls.map (fun l => l ++ [10])).flatten

/-- Modelled from the spec words for the chunk-boundary-independence
property: the match obtained when the whole stream arrives as a single
concatenated buffer and is split on newlines, the completed lines being
tested in order. -/
def singleBufferMatch {M : Type} (p : List Nat → Option M) (stream : List Nat) :
    Option M :=
  (lineSplit stream).1.findSome? p

end WebTest

namespace Avh

/-! ## Theorems about the state-polling loop -/

/-- Claim C2, counterexample.  The claim asserts that for every target
state the loop fails as soon as it fetches the state `error`, without first
comparing that fetch against the target.  The source tests the `while`
condition (target equality) before the `error` check, so with target
`error` and first fetched state `error` the wait completes successfully
instead of failing. -/
theorem waitForState_error_target_counterexample :
    (waitForState "error" ["error"]).2 = WOut.success ∧
    (waitForState "error" ["error"]).2 ≠ WOut.errorState := by decide

/-- Claim C2, amended.  For every target state other than `error`, the loop
fails immediately upon the first fetched state equal to `error`: the action
trace consists of the unsuccessful polls before it (each followed by the
one-unit sleep), then the fetch of `error`, and nothing else — no further
sleep and no further fetch — and the outcome is the raised error. -/
theorem waitForState_error_immediate (target : String) (pre rest : List String)
    (htarget : target ≠ "error")
    (hpre : ∀ s ∈ pre, s ≠ target ∧ s ≠ "error") :
    waitForState target (pre ++ "error" :: rest) =
      ((pre.map (fun s => [WAct.fetch s, WAct.sleepAct 1])).flatten ++
          [WAct.fetch "error"],
        WOut.errorState) := by
  induction pre with
  | nil => simp [waitForState, Ne.symm htarget]
  | cons s ps ih =>
    have hs := hpre s (by simp)
    have ihh := ih (fun x hx => hpre x (by simp [hx]))
    simp [waitForState, hs.1, hs.2, ihh]

/-- Witness for the amended claim C2 at a concrete run. -/
theorem waitForState_error_immediate_witness :
    waitForState "on" (["booting"] ++ "error" :: ["ignored"]) =
      (((["booting"] : List String).map
            (fun s => [WAct.fetch s, WAct.sleepAct 1])).flatten ++
          [WAct.fetch "error"],
        WOut.errorState) :=
  waitForState_error_immediate "on" ["booting"] ["ignored"] (by decide) (by decide)

/-- Claim C6.  The polling loop fetches before it ever sleeps: its action
trace starts with a fetch whenever any state is fetched at all, and the
trace alternates fetches with single sleeps of exactly 1 time unit. -/
theorem waitForState_poll_shape (target : String) (states : List String) :
    interleaved (waitForState target states).1 = true ∧
    (states ≠ [] →
      ∃ s rest, (waitForState target states).1 = WAct.fetch s :: rest) := by
  induction states with
  | nil => simp [waitForState, interleaved]
  | cons s ss ih =>
    by_cases h1 : s = target
    · simp [waitForState, h1, interleaved]
    · by_cases h2 : s = "error"
      · subst h2
        simp [waitForState, h1, interleaved]
      · constructor
        · simp [waitForState, h1, h2, interleaved, ih.1]
        · intro _
          exact ⟨s, WAct.sleepAct 1 :: (waitForState target ss).1,
            by simp [waitForState, h1, h2]⟩

/-- Witness for claim C6 at a concrete run. -/
theorem waitForState_poll_shape_witness :
    interleaved (waitForState "on" ["off", "booting", "on"]).1 = true ∧
    (∃ s rest,
      (waitForState "on" ["off", "booting", "on"]).1 = WAct.fetch s :: rest) := by
  have h := waitForState_poll_shape "on" ["off", "booting", "on"]
  exact ⟨h.1, h.2 (by decide)⟩

/-! ## Theorems about board resolution -/

/-- The catalog scan skips every non-matching entry and stops at the first
entry whose flavor starts with the requested board. -/
theorem chooseModel_append (board : String) (pre post : List Model) (m : Model)
    (hpre : ∀ x ∈ pre, startswith x.flavor board = false)
    (hm : startswith m.flavor board = true) :
    chooseModel board (pre ++ m :: post) = some m := by
  induction pre with
  | nil => simp [chooseModel, hm]
  | cons a ps ih =>
    have ha := hpre a (by simp)
    have ihh := ih (fun x hx => hpre x (by simp [hx]))
    simp [chooseModel, ha, ihh]

/-- The catalog scan finds nothing when no flavor matches. -/
theorem chooseModel_none (board : String) (models : List Model)
    (h : ∀ x ∈ models, startswith x.flavor board = false) :
    chooseModel board models = none := by
  induction models with
  | nil => rfl
  | cons a ps ih =>
    have ha := h a (by simp)
    have ihh := ih (fun x hx => h x (by simp [hx]))
    simp [chooseModel, ha, ihh]

/-- Claim C5.  Board resolution selects the first entry in listing order
whose flavor string starts with the caller-supplied identifier, under the
case-sensitive Python `startswith` test, and raises the board-not-found
error when no flavor has that initial segment. -/
theorem resolveBoard_first_match (board : String) :
    (∀ pre post m, (∀ x ∈ pre, startswith x.flavor board = false) →
        startswith m.flavor board = true →
        resolveBoard board (pre ++ m :: post) = Except.ok m) ∧
    (∀ models, (∀ x ∈ models, startswith x.flavor board = false) →
        resolveBoard board models =
          Except.error ("Board not found: " ++ board)) := by
  constructor
  · intro pre post m hpre hm
    simp [resolveBoard, chooseModel_append board pre post m hpre hm]
  · intro models h
    simp [resolveBoard, chooseModel_none board models h]

/-- Witness for claim C5: the first matching flavor wins in catalog order,
and an upper-case flavor does not match a lower-case board identifier. -/
theorem resolveBoard_first_match_witness :
    resolveBoard "stm32u5"
        ([⟨"other", "imx8"⟩] ++ ⟨"a", "stm32u5-a"⟩ :: [⟨"b", "stm32u5-b"⟩]) =
      Except.ok ⟨"a", "stm32u5-a"⟩ ∧
    resolveBoard "stm32u5" [⟨"up", "STM32U5-a"⟩] =
      Except.error ("Board not found: " ++ "stm32u5") :=
  ⟨(resolveBoard_first_match "stm32u5").1 [⟨"other", "imx8"⟩]
      [⟨"b", "stm32u5-b"⟩] ⟨"a", "stm32u5-a"⟩ (by decide) (by decide),
    (resolveBoard_first_match "stm32u5").2 [⟨"up", "STM32U5-a"⟩] (by decide)⟩

/-! ## Theorems about runTests -/

/-- Claim C8.  With the script file loaded, the entry-point invocation runs
under the caller-supplied timeout, whose command-line default is 30 time
units: a raise from the entry point or an expired timeout makes the call
report `Test failed` and raise, and a normal return within the timeout
reports the test as passed. -/
theorem runTests_guarded_timeout (t : TestRun) (timeout : Nat)
    (hload : t.loadOk = true) :
    defaultTimeout = 30 ∧
    (t.raises = true ∨ timeout < t.duration →
      runTests t timeout = (["Test failed"], RunRes.raised)) ∧
    (t.raises = false → t.duration ≤ timeout →
      runTests t timeout = (["Test passed"], RunRes.ok)) := by
  refine ⟨rfl, ?_, ?_⟩
  · intro h
    simp only [runTests, hload]
    rw [if_neg (by simp), if_pos h]
  · intro h1 h2
    simp only [runTests, hload]
    rw [if_neg (by simp), if_neg (by simp [h1, Nat.not_lt.mpr h2])]

/-- Witness for claim C8: a run whose duration exceeds the timeout reports
`Test failed` and raises. -/
theorem runTests_guarded_timeout_witness :
    runTests ⟨true, false, 31⟩ 30 = (["Test failed"], RunRes.raised) :=
  (runTests_guarded_timeout ⟨true, false, 31⟩ 30 (by decide)).2.1
    (Or.inr (by decide))

/-- Claim C10.  The script module is loaded before the guarded region: a
load failure raises with nothing printed (no `Test failed` report), and the
`Test failed` report can only come from a loaded entry point that raised or
exceeded its timeout. -/
theorem runTests_load_outside_guard (t : TestRun) (timeout : Nat) :
    (t.loadOk = false → runTests t timeout = ([], RunRes.raised)) ∧
    ("Test failed" ∈ (runTests t timeout).1 →
      t.loadOk = true ∧ (t.raises = true ∨ timeout < t.duration)) := by
  constructor
  · intro h
    simp [runTests, h]
  · intro h
    by_cases hl : t.loadOk = false
    · simp [runTests, hl] at h
    · have hl1 : t.loadOk = true := by
        cases hh : t.loadOk
        · exact absurd hh hl
        · rfl
      by_cases hc : t.raises = true ∨ timeout < t.duration
      · exact ⟨hl1, hc⟩
      · simp [runTests, hl1, hc] at h

/-- Witness for claim C10: a failed load raises with no report printed. -/
theorem runTests_load_outside_guard_witness :
    runTests ⟨false, true, 0⟩ 30 = ([], RunRes.raised) :=
  (runTests_load_outside_guard ⟨false, true, 0⟩ 30).1 (by decide)

/-! ## Theorems about the provisioning workflow -/

/-- Claim C1, divergence demonstration.  In a run where every step up to
and including instance creation succeeds and the first boot wait fetches
the state `error`, the run exits with a raised exception, the instance was
created, and no deletion is ever attempted: the creation happened inside
`setupModel`, which raised before returning, so the variable `vm` in `main`
is still `None` and the `finally` block skips the delete call.  The claim
(and the specification) require the instance to be deleted exactly once on
this exit path. -/
theorem mainRun_boot_error_leak :
    (mainRun bootErrorEnv).1 = [Ev.created "i1"] ∧
    Ev.deleted "i1" ∉ (mainRun bootErrorEnv).1 ∧
    (mainRun bootErrorEnv).2 = MainRes.raised := by decide

end Avh

namespace WebTest

/-! ## Line-splitting theory -/

theorem breakNl_eq_none_iff (t : List Nat) : breakNl t = none ↔ 10 ∉ t := by
  induction t with
  | nil => simp [breakNl]
  | cons c cs ih =>
    by_cases hc : c = 10
    · subst hc
      simp [breakNl]
    · simp [breakNl, hc, ih, Ne.symm hc]

theorem breakNl_some (t : List Nat) : ∀ l r, breakNl t = some (l, r) →
    10 ∉ l ∧ t = l ++ 10 :: r := by
  induction t with
  | nil => intro l r h; simp [breakNl] at h
  | cons c cs ih =>
    intro l r h
    by_cases hc : c = 10
    · subst hc
      simp [breakNl] at h
      obtain ⟨h1, h2⟩ := h
      subst h1
      subst h2
      simp
    · simp only [breakNl, if_neg hc] at h
      cases hb : breakNl cs with
      | none => rw [hb] at h; simp at h
      | some q =>
        rw [hb] at h
        simp at h
        obtain ⟨h1, h2⟩ := h
        obtain ⟨hq1, hq2⟩ := ih q.1 q.2 (by rw [hb])
        subst h1
        subst h2
        constructor
        · simp [hq1, Ne.symm hc]
        · simp [hq2]

theorem joinNl_nil : joinNl [] = [] := rfl

theorem joinNl_cons (l : List Nat) (ls : List (List Nat)) :
    joinNl (l :: ls) = l ++ 10 :: joinNl ls := by
  simp [joinNl]

theorem joinNl_append (a b : List (List Nat)) :
    joinNl (a ++ b) = joinNl a ++ joinNl b := by
  simp [joinNl]

theorem lineSplit_join (t : List Nat) :
    joinNl (lineSplit t).1 ++ (lineSplit t).2 = t := by
  induction t with
  | nil => rfl
  | cons c cs ih =>
    by_cases hc : c = 10
    · subst hc
      simp [lineSplit, joinNl_cons, ih]
    · cases hq : (lineSplit cs).1 with
      | nil =>
        rw [hq] at ih
        simp [joinNl_nil] at ih
        simp [lineSplit, hc, hq, joinNl_nil, ih]
      | cons l ls =>
        rw [hq] at ih
        simp only [lineSplit, if_neg hc, hq]
        simp only [joinNl_cons] at ih ⊢
        simp [ih]

theorem lineSplit_noNl (t : List Nat) :
    (∀ l ∈ (lineSplit t).1, 10 ∉ l) ∧ 10 ∉ (lineSplit t).2 := by
  induction t with
  | nil => simp [lineSplit]
  | cons c cs ih =>
    by_cases hc : c = 10
    · subst hc
      simp only [lineSplit]
      refine ⟨?_, by simp [ih.2]⟩
      intro l hl
      simp at hl
      rcases hl with h | h
      · simp [h]
      · exact ih.1 l h
    · cases hq : (lineSplit cs).1 with
      | nil =>
        simp only [lineSplit, if_neg hc, hq]
        refine ⟨by simp, ?_⟩
        simp [Ne.symm hc, ih.2]
      | cons l ls =>
        simp only [lineSplit, if_neg hc, hq]
        have h1 := ih.1
        rw [hq] at h1
        refine ⟨?_, ih.2⟩
        intro x hx
        simp at hx
        rcases hx with h | h
        · subst h
          simp [Ne.symm hc]
          exact h1 l (by simp)
        · exact h1 x (by simp [h])

theorem nlSplit_unique : ∀ (a : List Nat) (b c d : List Nat), 10 ∉ a → 10 ∉ c →
    a ++ 10 :: b = c ++ 10 :: d → a = c ∧ b = d := by
  intro a
  induction a with
  | nil =>
    intro b c d _ hc h
    cases c with
    | nil =>
      simp at h
      exact ⟨rfl, h⟩
    | cons x xs =>
      simp at h
      exact absurd (h.1 ▸ List.mem_cons_self x xs) hc
  | cons x xs ih =>
    intro b c d ha hc h
    cases c with
    | nil =>
      simp at h
      exact absurd (h.1 ▸ List.mem_cons_self x xs) ha
    | cons y ys =>
      simp at h
      obtain ⟨h1, h2⟩ := h
      subst h1
      have ha2 : 10 ∉ xs := fun hm => ha (List.mem_cons_of_mem x hm)
      have hc2 : 10 ∉ ys := fun hm => hc (List.mem_cons_of_mem x hm)
      obtain ⟨e1, e2⟩ := ih b ys d ha2 hc2 h2
      exact ⟨by rw [e1], e2⟩

theorem joinNl_unique : ∀ (ls1 : List (List Nat)) (r1 : List Nat)
    (ls2 : List (List Nat)) (r2 : List Nat),
    (∀ l ∈ ls1, 10 ∉ l) → 10 ∉ r1 → (∀ l ∈ ls2, 10 ∉ l) → 10 ∉ r2 →
    joinNl ls1 ++ r1 = joinNl ls2 ++ r2 → ls1 = ls2 ∧ r1 = r2 := by
  intro ls1
  induction ls1 with
  | nil =>
    intro r1 ls2 r2 _ hr1 h2 hr2 h
    cases ls2 with
    | nil =>
      simp [joinNl_nil] at h
      exact ⟨rfl, h⟩
    | cons m ms =>
      rw [joinNl_nil, joinNl_cons] at h
      simp at h
      have : 10 ∈ r1 := by rw [h]; simp
      exact absurd this hr1
  | cons l ls ih =>
    intro r1 ls2 r2 h1 hr1 h2 hr2 h
    cases ls2 with
    | nil =>
      rw [joinNl_nil, joinNl_cons] at h
      simp at h
      have : 10 ∈ r2 := by rw [← h]; simp
      exact absurd this hr2
    | cons m ms =>
      rw [joinNl_cons, joinNl_cons] at h
      rw [List.append_assoc, List.append_assoc] at h
      simp only [List.cons_append] at h
      obtain ⟨e1, e2⟩ := nlSplit_unique l (joinNl ls ++ r1) m (joinNl ms ++ r2)
        (h1 l (by simp)) (h2 m (by simp)) h
      obtain ⟨e3, e4⟩ := ih r1 ms r2 (fun x hx => h1 x (by simp [hx])) hr1
        (fun x hx => h2 x (by simp [hx])) hr2 e2
      exact ⟨by rw [e1, e3], e4⟩

theorem lineSplit_eq (t : List Nat) (ls : List (List Nat)) (r : List Nat)
    (hjoin : joinNl ls ++ r = t) (hls : ∀ l ∈ ls, 10 ∉ l) (hr : 10 ∉ r) :
    lineSplit t = (ls, r) := by
  have h1 := lineSplit_join t
  have h2 := lineSplit_noNl t
  have h3 := joinNl_unique (lineSplit t).1 (lineSplit t).2 ls r h2.1 h2.2 hls hr
    (by rw [h1, hjoin])
  exact Prod.ext h3.1 h3.2

theorem lineSplit_of_noNl (t : List Nat) (h : 10 ∉ t) : lineSplit t = ([], t) :=
  lineSplit_eq t [] t (by simp [joinNl_nil]) (by simp) h

theorem lineSplit_breakNl (t line rest : List Nat)
    (h : breakNl t = some (line, rest)) :
    lineSplit t = (line :: (lineSplit rest).1, (lineSplit rest).2) := by
  obtain ⟨hnl, ht⟩ := breakNl_some t line rest h
  apply lineSplit_eq
  · rw [joinNl_cons, ht, List.append_assoc]
    simp [lineSplit_join rest]
  · intro x hx
    simp at hx
    rcases hx with hx | hx
    · subst hx; exact hnl
    · exact (lineSplit_noNl rest).1 x hx
  · exact (lineSplit_noNl rest).2

theorem lineSplit_append (a b : List Nat) :
    lineSplit (a ++ b) =
      ((lineSplit a).1 ++ (lineSplit ((lineSplit a).2 ++ b)).1,
        (lineSplit ((lineSplit a).2 ++ b)).2) := by
  apply lineSplit_eq
  · rw [joinNl_append, List.append_assoc, lineSplit_join ((lineSplit a).2 ++ b),
      ← List.append_assoc, lineSplit_join a]
  · intro x hx
    simp at hx
    rcases hx with hx | hx
    · exact (lineSplit_noNl a).1 x hx
    · exact (lineSplit_noNl _).1 x hx
  · exact (lineSplit_noNl _).2

end WebTest

namespace WebTest

/-! ## Characterization of the inner line loop and of the pattern wait -/

theorem processTextLoop_fst {M : Type} (p : List Nat → Option M) :
    ∀ fuel t, t.length ≤ fuel →
      (processTextLoop p fuel t).1 = (lineSplit t).1.findSome? p := by
  intro fuel
  induction fuel with
  | zero =>
    intro t ht
    have hnil : t = [] := List.eq_nil_of_length_eq_zero (Nat.le_zero.mp ht)
    subst hnil
    simp [processTextLoop, lineSplit]
  | succ f ih =>
    intro t ht
    cases hb : breakNl t with
    | none =>
      have hnl := (breakNl_eq_none_iff t).mp hb
      simp [processTextLoop, hb, lineSplit_of_noNl t hnl]
    | some q =>
      obtain ⟨line, rest⟩ := q
      obtain ⟨hnl, hteq⟩ := breakNl_some t line rest hb
      have hlen : rest.length ≤ f := by
        rw [hteq] at ht
        simp at ht
        omega
      rw [lineSplit_breakNl t line rest hb]
      simp only [processTextLoop, hb]
      cases hp : p line with
      | some m => simp [List.findSome?_cons, hp]
      | none => simp [List.findSome?_cons, hp, ih rest hlen]

theorem processTextLoop_snd {M : Type} (p : List Nat → Option M) :
    ∀ fuel t, t.length ≤ fuel → (lineSplit t).1.findSome? p = none →
      (processTextLoop p fuel t).2 = (lineSplit t).2 := by
  intro fuel
  induction fuel with
  | zero =>
    intro t ht _
    have hnil : t = [] := List.eq_nil_of_length_eq_zero (Nat.le_zero.mp ht)
    subst hnil
    simp [processTextLoop, lineSplit]
  | succ f ih =>
    intro t ht hnone
    cases hb : breakNl t with
    | none =>
      have hnl := (breakNl_eq_none_iff t).mp hb
      simp [processTextLoop, hb, lineSplit_of_noNl t hnl]
    | some q =>
      obtain ⟨line, rest⟩ := q
      obtain ⟨hnl, hteq⟩ := breakNl_some t line rest hb
      have hlen : rest.length ≤ f := by
        rw [hteq] at ht
        simp at ht
        omega
      rw [lineSplit_breakNl t line rest hb] at hnone ⊢
      simp only [List.findSome?_cons] at hnone
      cases hp : p line with
      | some m => rw [hp] at hnone; simp at hnone
      | none =>
        rw [hp] at hnone
        simp only [processTextLoop, hb, hp]
        exact ih rest hlen hnone

theorem processText_fst {M : Type} (p : List Nat → Option M) (t : List Nat) :
    (processText p t).1 = (lineSplit t).1.findSome? p :=
  processTextLoop_fst p t.length t (Nat.le_refl _)

theorem processText_snd {M : Type} (p : List Nat → Option M) (t : List Nat)
    (h : (lineSplit t).1.findSome? p = none) :
    (processText p t).2 = (lineSplit t).2 :=
  processTextLoop_snd p t.length t (Nat.le_refl _) h

/-- Central characterization of the pattern wait: starting from a buffer
that holds no newline, the result over any chunk sequence is the first
match among the completed lines of the concatenated stream. -/
theorem waitForPattern_eq {M : Type} (p : List Nat → Option M) :
    ∀ (msgs : List (List Nat)) (buf : List Nat), 10 ∉ buf →
      waitForPattern p buf msgs = singleBufferMatch p (buf ++ msgs.flatten) := by
  intro msgs
  induction msgs with
  | nil =>
    intro buf hbuf
    simp [waitForPattern, singleBufferMatch, lineSplit_of_noNl buf hbuf]
  | cons msg msgs ih =>
    intro buf hbuf
    have hflat : buf ++ (msg :: msgs).flatten = (buf ++ msg) ++ msgs.flatten := by
      simp
    rw [hflat]
    cases hm : (processText p (buf ++ msg)).1 with
    | some m =>
      rw [processText_fst] at hm
      simp only [waitForPattern, processText_fst, hm]
      simp only [singleBufferMatch, lineSplit_append (buf ++ msg) msgs.flatten]
      simp [List.findSome?_append, hm]
    | none =>
      rw [processText_fst] at hm
      have hrest : (processText p (buf ++ msg)).2 = (lineSplit (buf ++ msg)).2 :=
        processText_snd p (buf ++ msg) hm
      have hrnl : 10 ∉ (lineSplit (buf ++ msg)).2 := (lineSplit_noNl _).2
      simp only [waitForPattern, processText_fst, hm]
      rw [hrest, ih _ hrnl]
      simp only [singleBufferMatch, lineSplit_append (buf ++ msg) msgs.flatten]
      simp [List.findSome?_append, hm]

end WebTest

namespace WebTest

/-! ## UTF-8 decoding lemmas -/

theorem utf8DecodeOne_length (a : List Nat) (c : Nat) (r : List Nat)
    (h : utf8DecodeOne a = some (c, r)) : r.length < a.length := by
  cases a with
  | nil => simp [utf8DecodeOne] at h
  | cons b0 t0 =>
    simp only [utf8DecodeOne] at h
    repeat' split at h
    all_goals simp_all
    all_goals omega

set_option maxRecDepth 8192 in
theorem utf8DecodeOne_append (a : List Nat) (c : Nat) (r : List Nat)
    (b : List Nat) (h : utf8DecodeOne a = some (c, r)) :
    utf8DecodeOne (a ++ b) = some (c, r ++ b) := by
  cases a with
  | nil => simp [utf8DecodeOne] at h
  | cons b0 t0 =>
    simp only [utf8DecodeOne] at h
    repeat' split at h
    all_goals simp_all [utf8DecodeOne]
    all_goals repeat' split
    all_goals first
      | rfl
      | omega

theorem utf8DecodeLoop_fuel : ∀ (f1 f2 : Nat) (a : List Nat),
    a.length ≤ f1 → a.length ≤ f2 → utf8DecodeLoop f1 a = utf8DecodeLoop f2 a := by
  intro f1
  induction f1 with
  | zero =>
    intro f2 a h1 _
    have hnil : a = [] := List.eq_nil_of_length_eq_zero (Nat.le_zero.mp h1)
    subst hnil
    cases f2 <;> simp [utf8DecodeLoop]
  | succ g ih =>
    intro f2 a h1 h2
    cases a with
    | nil => cases f2 <;> simp [utf8DecodeLoop]
    | cons x t =>
      cases f2 with
      | zero => simp at h2
      | succ g2 =>
        simp only [utf8DecodeLoop]
        cases hd : utf8DecodeOne (x :: t) with
        | none => rfl
        | some q =>
          obtain ⟨cq, rq⟩ := q
          have hlen := utf8DecodeOne_length (x :: t) cq rq hd
          simp only [List.length_cons] at hlen h1 h2
          exact congrArg (Option.map (fun tl => cq :: tl))
            (ih g2 rq (by omega) (by omega))

theorem utf8Decode_append : ∀ (fuel : Nat) (a b ta tb : List Nat),
    a.length ≤ fuel → utf8Decode a = some ta → utf8Decode b = some tb →
    utf8Decode (a ++ b) = some (ta ++ tb) := by
  intro fuel
  induction fuel with
  | zero =>
    intro a b ta tb h ha hb
    have hnil : a = [] := List.eq_nil_of_length_eq_zero (Nat.le_zero.mp h)
    subst hnil
    simp only [utf8Decode, utf8DecodeLoop] at ha
    simp at ha
    subst ha
    simpa using hb
  | succ g ih =>
    intro a b ta tb h ha hb
    cases a with
    | nil =>
      simp only [utf8Decode, utf8DecodeLoop] at ha
      simp at ha
      subst ha
      simpa using hb
    | cons x t =>
      simp only [utf8Decode, List.length_cons, utf8DecodeLoop] at ha
      cases hd : utf8DecodeOne (x :: t) with
      | none => rw [hd] at ha; simp at ha
      | some q =>
        obtain ⟨cq, rq⟩ := q
        rw [hd] at ha
        have ha2 : Option.map (fun tl => cq :: tl) (utf8DecodeLoop t.length rq) =
            some ta := ha
        cases hr : utf8DecodeLoop t.length rq with
        | none => rw [hr] at ha2; simp at ha2
        | some tr =>
          rw [hr] at ha2
          simp at ha2
          have hlen := utf8DecodeOne_length (x :: t) cq rq hd
          simp only [List.length_cons] at hlen h
          have hrq : utf8Decode rq = some tr := by
            rw [utf8Decode, utf8DecodeLoop_fuel rq.length t.length rq
              (Nat.le_refl _) (by omega)]
            exact hr
          have htail := ih rq b tr tb (by omega) hrq hb
          have hd2 := utf8DecodeOne_append (x :: t) cq rq b hd
          simp only [List.cons_append] at hd2
          have hfuel : utf8DecodeLoop (t ++ b).length (rq ++ b) =
              utf8DecodeLoop (rq ++ b).length (rq ++ b) := by
            apply utf8DecodeLoop_fuel
            · simp
              omega
            · exact Nat.le_refl _
          have hstep : Option.map (fun tl => cq :: tl)
              (utf8DecodeLoop (t ++ b).length (rq ++ b)) = some (ta ++ tb) := by
            rw [hfuel]
            have hfull : utf8DecodeLoop (rq ++ b).length (rq ++ b) =
                some (tr ++ tb) := htail
            rw [hfull]
            simp [← ha2]
          have hred : utf8Decode ((x :: t) ++ b) =
              Option.map (fun tl => cq :: tl)
                (utf8DecodeLoop (t ++ b).length (rq ++ b)) := by
            simp only [List.cons_append, utf8Decode, List.length_cons,
              utf8DecodeLoop, List.append_eq]
            rw [hd2]
          rw [hred]
          exact hstep

theorem mapM_utf8Decode_flatten : ∀ (chunks texts : List (List Nat)),
    chunks.mapM utf8Decode = some texts →
    utf8Decode chunks.flatten = some texts.flatten := by
  intro chunks
  induction chunks with
  | nil =>
    intro texts h
    rw [List.mapM_nil] at h
    simp at h
    subst h
    rfl
  | cons c cs ih =>
    intro texts h
    rw [List.mapM_cons] at h
    cases hc : utf8Decode c with
    | none => rw [hc] at h; simp at h
    | some t =>
      rw [hc] at h
      cases hcs : cs.mapM utf8Decode with
      | none => rw [hcs] at h; simp at h
      | some ts =>
        rw [hcs] at h
        simp at h
        subst h
        simp only [List.flatten_cons]
        exact utf8Decode_append c.length c cs.flatten t ts.flatten
          (Nat.le_refl _) hc (ih ts hcs)

theorem waitForPatternBytes_eq_text {M : Type} (p : List Nat → Option M) :
    ∀ (chunks texts : List (List Nat)) (buf : List Nat),
      chunks.mapM utf8Decode = some texts →
      waitForPatternBytes p buf chunks = Except.ok (waitForPattern p buf texts) := by
  intro chunks
  induction chunks with
  | nil =>
    intro texts buf h
    rw [List.mapM_nil] at h
    simp at h
    subst h
    rfl
  | cons c cs ih =>
    intro texts buf h
    rw [List.mapM_cons] at h
    cases hc : utf8Decode c with
    | none => rw [hc] at h; simp at h
    | some t =>
      rw [hc] at h
      cases hcs : cs.mapM utf8Decode with
      | none => rw [hcs] at h; simp at h
      | some ts =>
        rw [hcs] at h
        simp at h
        subst h
        simp only [waitForPatternBytes, hc, waitForPattern]
        cases hm : (processText p (buf ++ t)).1 with
        | some m => simp [hm]
        | none => simp [hm, ih ts _ hcs]

end WebTest

namespace WebTest

/-! ## The instrumented variant agrees with the plain one, and its test log
obeys the line discipline -/

theorem processTextLoopT_agree {M : Type} (p : List Nat → Option M) :
    ∀ fuel t, (processTextLoopT p fuel t).1 = (processTextLoop p fuel t).1 ∧
      (processTextLoopT p fuel t).2.1 = (processTextLoop p fuel t).2 := by
  intro fuel
  induction fuel with
  | zero => intro t; simp [processTextLoopT, processTextLoop]
  | succ f ih =>
    intro t
    cases hb : breakNl t with
    | none => simp [processTextLoopT, processTextLoop, hb]
    | some q =>
      obtain ⟨line, rest⟩ := q
      cases hp : p line with
      | some m => simp [processTextLoopT, processTextLoop, hb, hp]
      | none => simp [processTextLoopT, processTextLoop, hb, hp, ih rest]

theorem waitForPatternT_agree {M : Type} (p : List Nat → Option M) :
    ∀ (msgs : List (List Nat)) (buf : List Nat),
      (waitForPatternT p buf msgs).1 = waitForPattern p buf msgs := by
  intro msgs
  induction msgs with
  | nil => intro buf; rfl
  | cons msg msgs ih =>
    intro buf
    have hag := processTextLoopT_agree p (buf ++ msg).length (buf ++ msg)
    cases hm : (processTextLoopT p (buf ++ msg).length (buf ++ msg)).1 with
    | some m =>
      have hm2 : (processText p (buf ++ msg)).1 = some m := by
        rw [processText, ← hag.1, hm]
      simp only [waitForPatternT, waitForPattern, hm, hm2, processText]
      rw [← hag.1, hm]
    | none =>
      have hm2 : (processText p (buf ++ msg)).1 = none := by
        rw [processText, ← hag.1, hm]
      simp only [waitForPatternT, waitForPattern, hm, hm2, processText]
      rw [← hag.1, hm]
      simp only []
      rw [hag.2, ih]

theorem processTextLoopT_log {M : Type} (p : List Nat → Option M) :
    ∀ fuel t, t.length ≤ fuel →
      joinNl (processTextLoopT p fuel t).2.2 ++ (processTextLoopT p fuel t).2.1 = t ∧
      (∀ l ∈ (processTextLoopT p fuel t).2.2, 10 ∉ l) ∧
      ((processTextLoopT p fuel t).1 = none → 10 ∉ (processTextLoopT p fuel t).2.1) := by
  intro fuel
  induction fuel with
  | zero =>
    intro t ht
    have hnil : t = [] := List.eq_nil_of_length_eq_zero (Nat.le_zero.mp ht)
    subst hnil
    simp [processTextLoopT, joinNl_nil]
  | succ f ih =>
    intro t ht
    cases hb : breakNl t with
    | none =>
      have hnl := (breakNl_eq_none_iff t).mp hb
      simp [processTextLoopT, hb, joinNl_nil, hnl]
    | some q =>
      obtain ⟨line, rest⟩ := q
      obtain ⟨hnl, hteq⟩ := breakNl_some t line rest hb
      have hlen : rest.length ≤ f := by
        rw [hteq] at ht
        simp at ht
        omega
      cases hp : p line with
      | some m =>
        simp only [processTextLoopT, hb, hp]
        refine ⟨?_, ?_, ?_⟩
        · simp [joinNl_cons, joinNl_nil, hteq]
        · intro l hl
          simp at hl
          subst hl
          exact hnl
        · intro hcontra
          simp at hcontra
      | none =>
        have hrec := ih rest hlen
        simp only [processTextLoopT, hb, hp]
        refine ⟨?_, ?_, ?_⟩
        · simp only [joinNl_cons, List.cons_append, List.append_assoc]
          rw [hrec.1, ← hteq]
        · intro l hl
          simp at hl
          rcases hl with hl | hl
          · subst hl; exact hnl
          · exact hrec.2.1 l hl
        · exact hrec.2.2

theorem waitForPatternT_log {M : Type} (p : List Nat → Option M) :
    ∀ (msgs : List (List Nat)) (buf : List Nat), 10 ∉ buf →
      (∀ l ∈ (waitForPatternT p buf msgs).2.2, 10 ∉ l) ∧
      (∃ u, joinNl (waitForPatternT p buf msgs).2.2 ++ u = buf ++ msgs.flatten) ∧
      ((waitForPatternT p buf msgs).1 = none →
        joinNl (waitForPatternT p buf msgs).2.2 ++ (waitForPatternT p buf msgs).2.1 =
            buf ++ msgs.flatten ∧
          10 ∉ (waitForPatternT p buf msgs).2.1) := by
  intro msgs
  induction msgs with
  | nil =>
    intro buf hbuf
    refine ⟨by simp [waitForPatternT], ⟨buf, by simp [waitForPatternT, joinNl_nil]⟩, ?_⟩
    intro _
    simp [waitForPatternT, joinNl_nil, hbuf]
  | cons msg msgs ih =>
    intro buf hbuf
    have hlog := processTextLoopT_log p (buf ++ msg).length (buf ++ msg) (Nat.le_refl _)
    have hflat : buf ++ (msg :: msgs).flatten = (buf ++ msg) ++ msgs.flatten := by
      simp
    cases hm : (processTextLoopT p (buf ++ msg).length (buf ++ msg)).1 with
    | some m =>
      simp only [waitForPatternT, hm]
      refine ⟨hlog.2.1, ?_, ?_⟩
      · refine ⟨(processTextLoopT p (buf ++ msg).length (buf ++ msg)).2.1 ++
          msgs.flatten, ?_⟩
        rw [hflat, ← List.append_assoc, hlog.1]
      · intro hcontra
        simp at hcontra
    | none =>
      have hrnl : 10 ∉ (processTextLoopT p (buf ++ msg).length (buf ++ msg)).2.1 :=
        hlog.2.2 hm
      have hrec := ih (processTextLoopT p (buf ++ msg).length (buf ++ msg)).2.1 hrnl
      simp only [waitForPatternT, hm]
      refine ⟨?_, ?_, ?_⟩
      · intro l hl
        rw [List.mem_append] at hl
        rcases hl with hl | hl
        · exact hlog.2.1 l hl
        · exact hrec.1 l hl
      · obtain ⟨u, hu⟩ := hrec.2.1
        refine ⟨u, ?_⟩
        rw [joinNl_append, List.append_assoc, hu, hflat, ← List.append_assoc, hlog.1]
      · intro hnone
        obtain ⟨hjoin, hnl2⟩ := hrec.2.2 hnone
        constructor
        · rw [joinNl_append, List.append_assoc, hjoin, hflat, ← List.append_assoc,
            hlog.1]
        · exact hnl2

end WebTest

namespace WebTest

/-! ## Claim theorems for the pattern wait -/

/-- Claim C3, counterexample.  The claim quantifies over every byte stream
and every partition of it into message chunks.  The source decodes each
chunk separately (`message.decode('utf-8')`), so a chunk boundary that
splits the two-byte UTF-8 sequence C3 A9 (the character with code point
233) makes the first chunk invalid UTF-8: the chunked run raises a decode
error, while the same bytes delivered as a single buffer decode cleanly and
produce a match. -/
theorem waitForPattern_chunk_counterexample :
    waitForPatternBytes (fun l => if 233 ∈ l then some () else none) []
        [[195], [169, 10]] = Except.error () ∧
    waitForPatternBytes (fun l => if 233 ∈ l then some () else none) []
        [[195, 169, 10]] = Except.ok (some ()) ∧
    ([[195], [169, 10]] : List (List Nat)).flatten = [195, 169, 10] :=
  ⟨rfl, rfl, rfl⟩

/-- Claim C3, amended.  For every byte stream and every partition of it
into chunks each of which is valid UTF-8 on its own (in particular, every
partition whose boundaries fall on character boundaries, such as any
partition of an ASCII stream), the chunked run returns the same result as
the run on the single concatenated buffer, and that result is the first
match among the completed lines of the decoded stream. -/
theorem waitForPattern_chunk_independent {M : Type} (p : List Nat → Option M)
    (chunks texts : List (List Nat))
    (hdec : chunks.mapM utf8Decode = some texts) :
    waitForPatternBytes p [] chunks = waitForPatternBytes p [] [chunks.flatten] ∧
    waitForPatternBytes p [] chunks = Except.ok (singleBufferMatch p texts.flatten) := by
  have h1 := waitForPatternBytes_eq_text p chunks texts [] hdec
  have hflat := mapM_utf8Decode_flatten chunks texts hdec
  have h2 : ([chunks.flatten] : List (List Nat)).mapM utf8Decode =
      some [texts.flatten] := by
    rw [List.mapM_cons, hflat, List.mapM_nil]
    rfl
  have h3 := waitForPatternBytes_eq_text p [chunks.flatten] [texts.flatten] [] h2
  have htext : waitForPattern p [] texts = singleBufferMatch p texts.flatten := by
    rw [waitForPattern_eq p texts [] (by simp)]
    simp
  constructor
  · rw [h1, h3]
    congr 1
    rw [htext, waitForPattern_eq p [texts.flatten] [] (by simp)]
    simp
  · rw [h1, htext]

/-- Witness for the amended claim C3 at a concrete run: a two-byte
character kept whole inside one chunk. -/
theorem waitForPattern_chunk_independent_witness :
    waitForPatternBytes (fun l => if 299 ∈ l then some () else none) []
        [[104, 10], [105, 196, 171, 10]] =
      waitForPatternBytes (fun l => if 299 ∈ l then some () else none) []
        [([[104, 10], [105, 196, 171, 10]] : List (List Nat)).flatten] :=
  (waitForPattern_chunk_independent (fun l => if 299 ∈ l then some () else none)
      [[104, 10], [105, 196, 171, 10]] [[104, 10], [105, 299, 10]] (by decide)).1

/-- Claim C4.  The pattern is applied only to completed newline-terminated
lines: the instrumented run agrees with the plain one, every line passed to
the search is newline-free, those lines followed by their newline
terminators form an initial segment of the stream, and when no line matched
the tested lines plus the retained trailing buffer reassemble the whole
stream, the retained buffer holding no newline. -/
theorem waitForPattern_complete_lines_only {M : Type} (p : List Nat → Option M)
    (msgs : List (List Nat)) :
    (waitForPatternT p [] msgs).1 = waitForPattern p [] msgs ∧
    (∀ l ∈ (waitForPatternT p [] msgs).2.2, 10 ∉ l) ∧
    (∃ u, joinNl (waitForPatternT p [] msgs).2.2 ++ u = msgs.flatten) ∧
    ((waitForPatternT p [] msgs).1 = none →
      joinNl (waitForPatternT p [] msgs).2.2 ++ (waitForPatternT p [] msgs).2.1 =
          msgs.flatten ∧
        10 ∉ (waitForPatternT p [] msgs).2.1) := by
  have h := waitForPatternT_log p msgs [] (by simp)
  simp only [List.nil_append] at h
  exact ⟨waitForPatternT_agree p msgs [], h.1, h.2.1, h.2.2⟩

/-- Witness for claim C4 at a concrete run with no match: the tested lines
rejoined with their terminators plus the retained buffer give back the
stream, and the buffer holds no newline. -/
theorem waitForPattern_complete_lines_only_witness :
    joinNl (waitForPatternT (fun (_ : List Nat) => (none : Option Unit)) []
          [[66, 10, 65], [66, 10]]).2.2 ++
        (waitForPatternT (fun (_ : List Nat) => (none : Option Unit)) []
          [[66, 10, 65], [66, 10]]).2.1 =
      ([[66, 10, 65], [66, 10]] : List (List Nat)).flatten ∧
    10 ∉ (waitForPatternT (fun (_ : List Nat) => (none : Option Unit)) []
        [[66, 10, 65], [66, 10]]).2.1 :=
  (waitForPattern_complete_lines_only (fun (_ : List Nat) => (none : Option Unit))
      [[66, 10, 65], [66, 10]]).2.2.2 (by decide)

/-- Claim C7.  For a stream that is exhausted before any completed line
matches — every chunk decoding cleanly and the search returning nothing on
every completed line of the decoded stream — the call completes without an
error and without a match result. -/
theorem waitForPattern_stream_closed_no_match {M : Type} (p : List Nat → Option M)
    (chunks texts : List (List Nat))
    (hdec : chunks.mapM utf8Decode = some texts)
    (hnomatch : ∀ l ∈ (lineSplit texts.flatten).1, p l = none) :
    waitForPatternBytes p [] chunks = Except.ok none := by
  have hnone : (lineSplit texts.flatten).1.findSome? p = none :=
    List.findSome?_eq_none_iff.mpr hnomatch
  rw [waitForPatternBytes_eq_text p chunks texts [] hdec,
    waitForPattern_eq p texts [] (by simp)]
  simp only [singleBufferMatch, List.nil_append]
  rw [hnone]

/-- Witness for claim C7: stream with one completed non-matching line and
trailing text, exhausted without a match. -/
theorem waitForPattern_stream_closed_no_match_witness :
    waitForPatternBytes (fun l => if 120 ∈ l then some () else none) []
        [[104, 105, 10, 104]] = Except.ok none :=
  waitForPattern_stream_closed_no_match
    (fun l => if 120 ∈ l then some () else none)
    [[104, 105, 10, 104]] [[104, 105, 10, 104]] (by decide) (by decide)

/-- Claim C9.  The newline terminator is removed before the search is
applied: every line passed to the search is newline-free, so a pattern that
can only match text containing a newline never matches any line and the
wait returns no match on any stream. -/
theorem waitForPattern_newline_stripped {M : Type} (p : List Nat → Option M)
    (msgs : List (List Nat)) :
    (∀ l ∈ (waitForPatternT p [] msgs).2.2, 10 ∉ l) ∧
    ((∀ l, 10 ∉ l → p l = none) → waitForPattern p [] msgs = none) := by
  constructor
  · exact (waitForPatternT_log p msgs [] (by simp)).1
  · intro hp
    rw [waitForPattern_eq p msgs [] (by simp)]
    simp only [singleBufferMatch, List.nil_append]
    refine List.findSome?_eq_none_iff.mpr ?_
    intro l hl
    exact hp l ((lineSplit_noNl msgs.flatten).1 l hl)

/-- Witness for claim C9: a search that only succeeds on text containing a
newline finds nothing, even though the stream is full of newlines. -/
theorem waitForPattern_newline_stripped_witness :
    waitForPattern (fun l => if 10 ∈ l then some () else none) []
        [[65, 10, 66, 10]] = none :=
  (waitForPattern_newline_stripped (fun l => if 10 ∈ l then some () else none)
      [[65, 10, 66, 10]]).2 (fun l hl => by simp [hl])

end WebTest
